import Mathlib

/-!
Verification of the blueprint scraper (`src/blueprints/blueprint-scraper.ts`).

The scraper works on raw HTML text.  We embed it shallowly: a JavaScript
string is a `List Char`, `String.prototype.indexOf` scanning becomes
`firstOccur`, the chained `String.prototype.replace(/lit/g, rep)` calls
become `replaceAll`, the whitespace regex `/\s+/g` becomes `collapseWs`
over the JavaScript `\s` character class, and `String.prototype.trim`
becomes `jsTrim`.  Each lazy literal-anchored regex of the source is
embedded as the equivalent left-to-right scan over first occurrences.
Numbers produced by `Number.parseInt` on a digit run are modelled as `Nat`
(the scraper only ever parses non-negative decimal digit runs).

The source's `while`-loops over a cursor advance the cursor by at least one
character per iteration, so each such loop is embedded as a structurally
recursive function over a fuel argument initialised with the length of the
scanned text: the fuel can run out only on the empty remainder, where the
base case returns exactly what the loop returns on an empty remainder.
This keeps every definition kernel-computable.
-/

set_option maxRecDepth 100000

namespace Scraper

/-- The JavaScript `\s` (and `trim`) character class: ASCII whitespace plus
the Unicode space separators, line separators and the BOM. -/
def jsWs (c : Char) : Bool :=
  c = ' ' || c = '\t' || c = '\n' || c = '\r' || c = '\x0b' || c = '\x0c' ||
  c = ' ' || c = ' ' || c = ' ' || c = ' ' || c = ' ' ||
  c = ' ' || c = ' ' || c = ' ' || c = ' ' || c = ' ' ||
  c = ' ' || c = ' ' || c = ' ' || c = ' ' || c = ' ' ||
  c = ' ' || c = ' ' || c = '　' || c = '﻿'

/-- Index of the first occurrence of `pat` in `s`, scanning positions from the
left — the model of `String.prototype.indexOf` for a literal pattern. -/
def firstOccur (pat : List Char) : List Char → Option Nat
  | [] => if pat.isPrefixOf ([] : List Char) then some 0 else none
  | c :: rest =>
    if pat.isPrefixOf (c :: rest) then some 0
    else (firstOccur pat rest).map (· + 1)

/-- Whether `pat` occurs in `s` (`indexOf(...) !== -1`). -/
def containsPat (pat s : List Char) : Bool := (firstOccur pat s).isSome

/-- The suffix of `s` just after the first occurrence of `pat`. -/
def afterFirst (pat s : List Char) : Option (List Char) :=
  (firstOccur pat s).map (fun p => s.drop (p + pat.length))

/-- The text before the first occurrence of `pat`, and the suffix after it. -/
def captureUntil (pat s : List Char) : Option (List Char × List Char) :=
  (firstOccur pat s).map (fun p => (s.take p, s.drop (p + pat.length)))

theorem firstOccur_some_fits {pat s : List Char} {p : Nat}
    (h : firstOccur pat s = some p) : p + pat.length ≤ s.length := by
  induction s generalizing p with
  | nil =>
    unfold firstOccur at h
    split at h
    · rename_i hp
      have hpe : pat = [] := by
        cases pat with
        | nil => rfl
        | cons a l => simp [List.isPrefixOf] at hp
      cases h
      simp [hpe]
    · cases h
  | cons c rest ih =>
    unfold firstOccur at h
    split at h
    · rename_i hp
      cases h
      have := (List.isPrefixOf_iff_prefix.mp hp).length_le
      simpa using this
    · rcases Option.map_eq_some'.mp h with ⟨q, hq, rfl⟩
      have := ih hq
      simp only [List.length_cons]
      omega

theorem firstOccur_some_starts {pat s : List Char} {p : Nat}
    (h : firstOccur pat s = some p) : pat <+: s.drop p := by
  induction s generalizing p with
  | nil =>
    unfold firstOccur at h
    split at h
    · rename_i hp
      cases h
      simpa using List.isPrefixOf_iff_prefix.mp hp
    · cases h
  | cons c rest ih =>
    unfold firstOccur at h
    split at h
    · rename_i hp
      cases h
      simpa using List.isPrefixOf_iff_prefix.mp hp
    · rcases Option.map_eq_some'.mp h with ⟨q, hq, rfl⟩
      simpa using ih hq

theorem firstOccur_some_min {pat s : List Char} {p : Nat}
    (h : firstOccur pat s = some p) : ∀ j < p, ¬ pat <+: s.drop j := by
  induction s generalizing p with
  | nil =>
    unfold firstOccur at h
    split at h
    · cases h; omega
    · cases h
  | cons c rest ih =>
    unfold firstOccur at h
    split at h
    · cases h; omega
    · rename_i hp
      rcases Option.map_eq_some'.mp h with ⟨q, hq, rfl⟩
      intro j hj
      cases j with
      | zero =>
        simpa using fun hpre => hp (List.isPrefixOf_iff_prefix.mpr hpre)
      | succ j' =>
        have := ih hq j' (by omega)
        simpa using this

theorem firstOccur_none {pat s : List Char}
    (h : firstOccur pat s = none) : ∀ j, ¬ pat <+: s.drop j := by
  induction s with
  | nil =>
    unfold firstOccur at h
    split at h
    · cases h
    · rename_i hp
      intro j
      simpa using fun hpre => hp (List.isPrefixOf_iff_prefix.mpr hpre)
  | cons c rest ih =>
    unfold firstOccur at h
    split at h
    · cases h
    · rename_i hp
      have hrest : firstOccur pat rest = none := by
        cases hfo : firstOccur pat rest with
        | none => rfl
        | some q => rw [hfo] at h; simp at h
      intro j
      cases j with
      | zero =>
        simpa using fun hpre => hp (List.isPrefixOf_iff_prefix.mpr hpre)
      | succ j' =>
        simpa using ih hrest j'

theorem firstOccur_eq_none_of {pat s : List Char}
    (h : ∀ j, ¬ pat <+: s.drop j) : firstOccur pat s = none := by
  induction s with
  | nil =>
    unfold firstOccur
    split
    · rename_i hp
      exact absurd (by simpa using List.isPrefixOf_iff_prefix.mp hp) (h 0)
    · rfl
  | cons c rest ih =>
    unfold firstOccur
    split
    · rename_i hp
      exact absurd (by simpa using List.isPrefixOf_iff_prefix.mp hp) (h 0)
    · rw [ih (fun j => by simpa using h (j + 1))]
      rfl

theorem firstOccur_at_start {pat s : List Char}
    (h : pat <+: s) : firstOccur pat s = some 0 := by
  cases s with
  | nil =>
    have : pat = [] := List.prefix_nil.mp h
    simp [firstOccur, this, List.isPrefixOf]
  | cons c rest =>
    unfold firstOccur
    rw [if_pos (List.isPrefixOf_iff_prefix.mpr h)]

theorem firstOccur_append_skip {pat u v : List Char}
    (h : ∀ k < u.length, ¬ pat <+: (u ++ v).drop k) :
    firstOccur pat (u ++ v) = (firstOccur pat v).map (· + u.length) := by
  induction u with
  | nil =>
    simp only [List.nil_append, List.length_nil]
    cases firstOccur pat v <;> simp
  | cons c rest ih =>
    have hc : ¬ pat.isPrefixOf (c :: (rest ++ v)) := by
      intro hp
      exact h 0 (by simp) (by simpa using List.isPrefixOf_iff_prefix.mp hp)
    have hrec := ih (fun k hk => by
      have := h (k + 1) (by simpa using Nat.succ_lt_succ hk)
      simpa using this)
    rw [List.cons_append, firstOccur, if_neg hc, hrec]
    cases firstOccur pat v with
    | none => rfl
    | some q =>
      simp only [Option.map_some', List.length_cons]
      congr 1

theorem prefix_head {pc : Char} {pt w : List Char}
    (h : (pc :: pt) <+: w) : w.head? = some pc := by
  rcases h with ⟨t, rfl⟩
  rfl

theorem not_prefix_of_head_notMem {pc : Char} {pt u v : List Char}
    (hm : pc ∉ u) : ∀ k < u.length, ¬ (pc :: pt) <+: (u ++ v).drop k := by
  intro k hk hpre
  have hd : ((u ++ v).drop k).head? = some pc := prefix_head hpre
  have hsplit : (u ++ v).drop k = u[k] :: (u.drop (k + 1) ++ v) := by
    rw [List.drop_append_eq_append_drop]
    have h2 : k - u.length = 0 := by omega
    rw [h2, List.drop_zero, List.drop_eq_getElem_cons hk, List.cons_append]
  rw [hsplit] at hd
  simp only [List.head?_cons, Option.some.injEq] at hd
  exact hm (hd ▸ List.getElem_mem hk)

theorem firstOccur_append_head_notMem {pc : Char} {pt u v : List Char}
    (hm : pc ∉ u) :
    firstOccur (pc :: pt) (u ++ v) =
      (firstOccur (pc :: pt) v).map (· + u.length) :=
  firstOccur_append_skip (not_prefix_of_head_notMem hm)

theorem firstOccur_none_of_head_notMem {pc : Char} {pt u : List Char}
    (hm : pc ∉ u) : firstOccur (pc :: pt) u = none := by
  apply firstOccur_eq_none_of
  intro j hpre
  have hd : (u.drop j).head? = some pc := prefix_head hpre
  cases hdu : u.drop j with
  | nil => rw [hdu] at hd; cases hd
  | cons a l =>
    rw [hdu] at hd
    simp only [List.head?_cons, Option.some.injEq] at hd
    have hmem : pc ∈ u.drop j := by
      rw [hdu, hd]
      exact List.mem_cons_self pc l
    exact hm (List.mem_of_mem_drop hmem)

/-- A decidable certificate that no occurrence of `pat` can begin inside
`lit`, whatever follows `lit`: at every start offset `k` the pattern
disagrees with `lit` at some index still inside `lit`. -/
def litBlocks (lit pat : List Char) : Prop :=
  ∀ k < lit.length, ∃ i < pat.length, k + i < lit.length ∧ pat[i]? ≠ lit[k + i]?

instance (lit pat : List Char) : Decidable (litBlocks lit pat) := by
  unfold litBlocks
  infer_instance

theorem litBlocks_blocks {lit pat : List Char} (hb : litBlocks lit pat)
    (v : List Char) : ∀ k < lit.length, ¬ pat <+: (lit ++ v).drop k := by
  intro k hk hpre
  rcases hb k hk with ⟨i, hi, hki, hne⟩
  apply hne
  have h1 : pat[i]? = ((lit ++ v).drop k)[i]? := by
    rcases hpre with ⟨t, ht⟩
    rw [← ht]
    rw [List.getElem?_append_left hi]
  rw [h1, List.getElem?_drop]
  rw [List.getElem?_append_left hki]

theorem firstOccur_append_lit {lit pat : List Char} (hb : litBlocks lit pat)
    (v : List Char) :
    firstOccur pat (lit ++ v) = (firstOccur pat v).map (· + lit.length) :=
  firstOccur_append_skip (litBlocks_blocks hb v)

theorem afterFirst_length_lt {pat s r : List Char} (hp : pat ≠ [])
    (h : afterFirst pat s = some r) : r.length < s.length := by
  unfold afterFirst at h
  rcases Option.map_eq_some'.mp h with ⟨p, hfo, rfl⟩
  have hfits := firstOccur_some_fits hfo
  have hlen : 0 < pat.length := List.length_pos.mpr hp
  simp only [List.length_drop]
  omega

theorem captureUntil_snd_length_lt {pat s cap r : List Char} (hp : pat ≠ [])
    (h : captureUntil pat s = some (cap, r)) : r.length < s.length := by
  unfold captureUntil at h
  rcases Option.map_eq_some'.mp h with ⟨p, hfo, heq⟩
  have hfits := firstOccur_some_fits hfo
  have hlen : 0 < pat.length := List.length_pos.mpr hp
  have hr : r = s.drop (p + pat.length) := by
    have := congrArg Prod.snd heq
    simpa using this.symm
  subst hr
  simp only [List.length_drop]
  omega

/-! ## `replace`, whitespace collapsing, trimming, tag stripping, digits -/

/-- Fuel-indexed body of `replaceAll`; the fuel bounds the scan length. -/
def replaceAllGo (pat rep : List Char) : Nat → List Char → List Char
  | 0, _ => []
  | _ + 1, [] => []
  | fuel + 1, c :: rest =>
    if pat ≠ [] ∧ pat.isPrefixOf (c :: rest) then
      rep ++ replaceAllGo pat rep fuel ((c :: rest).drop pat.length)
    else c :: replaceAllGo pat rep fuel rest

/-- Model of `value.replace(/pat/g, rep)` for a literal pattern: replace each
non-overlapping leftmost occurrence; the replacement text is not rescanned. -/
def replaceAll (pat rep s : List Char) : List Char :=
  replaceAllGo pat rep s.length s

/-- Fuel-indexed body of `collapseWs`. -/
def collapseWsGo : Nat → List Char → List Char
  | 0, _ => []
  | _ + 1, [] => []
  | fuel + 1, c :: rest =>
    if jsWs c then ' ' :: collapseWsGo fuel (rest.dropWhile (jsWs ·))
    else c :: collapseWsGo fuel rest

/-- Model of `value.replace(/\s+/g, " ")`: every maximal whitespace run
becomes a single space. -/
def collapseWs (s : List Char) : List Char := collapseWsGo s.length s

/-- Leading-whitespace trim, as in `String.prototype.trimStart`. -/
def trimStart (s : List Char) : List Char := s.dropWhile (jsWs ·)

/-- Trailing-whitespace trim, as in `String.prototype.trimEnd`. -/
def trimEnd (s : List Char) : List Char := (s.reverse.dropWhile (jsWs ·)).reverse

/-- Model of `String.prototype.trim`. -/
def jsTrim (s : List Char) : List Char := trimEnd (trimStart s)

/-- Fuel-indexed body of `stripTags`. -/
def stripTagsGo : Nat → List Char → List Char
  | 0, _ => []
  | _ + 1, [] => []
  | fuel + 1, c :: rest =>
    if c = '<' then
      if (rest.takeWhile (fun d => d ≠ '>')).length ≠ 0 ∧
          (rest.takeWhile (fun d => d ≠ '>')).length < rest.length then
        ' ' :: stripTagsGo fuel
          (rest.drop ((rest.takeWhile (fun d => d ≠ '>')).length + 1))
      else c :: stripTagsGo fuel rest
    else c :: stripTagsGo fuel rest

/-- Model of `value.replace(/<[^>]+>/g, " ")`: every `<`, at least one
non-`>` character, then `>` becomes a single space. -/
def stripTags (s : List Char) : List Char := stripTagsGo s.length s

/-- Decimal value of a digit run, as `Number.parseInt(run, 10)` computes it. -/
def digitsVal (ds : List Char) : Nat :=
  ds.foldl (fun n c => n * 10 + (c.toNat - 48)) 0

/-- The first match of `/\d+/`: the maximal digit run starting at the first
digit of `s`, if any. -/
def firstDigitRun : List Char → Option (List Char)
  | [] => none
  | c :: rest =>
    if c.isDigit then some ((c :: rest).takeWhile Char.isDigit)
    else firstDigitRun rest

/-! ## The markup literals the scraper anchors on -/

def ampPat : List Char := "&amp;".toList
def ltPat : List Char := "&lt;".toList
def gtPat : List Char := "&gt;".toList
def quotPat : List Char := "&quot;".toList
def aposChar : Char := '\''
def aposPat : List Char := "&#39;".toList
def cardMarker : List Char := "<li class=\"o-blueprint-card factory\"".toList
def idLit : List Char := "data-blueprint-id=\"".toList
def h2Lit : List Char := "<h2>".toList
def anchorLit : List Char := "<a ".toList
def gtLit : List Char := ">".toList
def anchorCloseLit : List Char := "</a>".toList
def byLit : List Char := "by".toList
def coverLit : List Char := "<div class=\"o-blueprint-card__cover\">".toList
def hrefLit : List Char := "<a href=\"".toList
def quoteLit : List Char := "\"".toList
def cardTagsUlLit : List Char := "<ul class=\"o-blueprint-card__tags\">".toList
def ulOpenLit : List Char := "<ul".toList
def ulCloseLit : List Char := "</ul>".toList
def divOpenLit : List Char := "<div".toList
def divCloseLit : List Char := "</div>".toList
def textareaLit : List Char := "<textarea".toList
def clipboardLit : List Char := "data-clipboard-target=\"true\"".toList
def textareaCloseLit : List Char := "</textarea>".toList
def reqListMarker : List Char := "<ul class=\"t-blueprint__requirements-data\">".toList
def entityMarker : List Char := "<li class=\"t-blueprint__requirements-entity\">".toList
def tagSectionMarker : List Char := "<div class=\"t-blueprint__tags\">".toList
def tippyLit : List Char := "data-tippy-content=\"".toList
def trixLit : List Char := "<div class=\"trix-content\">".toList
def innerDivLit : List Char := "<div>".toList
def tallyDivLit : List Char :=
  "<div class=\"t-blueprint__requirements-entity__tally\">".toList
def tallyNameLit : List Char := "t-blueprint__requirements-entity__tally".toList
def recipesUlLit : List Char :=
  "<ul class=\"t-blueprint__requirements-entity__recipes\">".toList
def liLit : List Char := "<li".toList
def recipeClassLit : List Char :=
  "class=\"t-blueprint__requirements-entity__recipe".toList
def liCloseLit : List Char := "</li>".toList
def cardTagLiLit : List Char := "<li class=\"o-blueprint-card__tags-tag".toList

/-! ## `decodeHtmlEntities`, `normalizeText`, `parseCountFromHtml` -/

/-- `decodeHtmlEntities`: the five chained global replaces, `&amp;` first. -/
def decodeHtmlEntities (v : List Char) : List Char :=
  replaceAll aposPat [aposChar]
    (replaceAll quotPat quoteLit
      (replaceAll gtPat (">".toList)
        (replaceAll ltPat ("<".toList)
          (replaceAll ampPat ("&".toList) v))))

/-- `normalizeText`: decode entities, collapse whitespace runs, then trim. -/
def normalizeText (v : List Char) : List Char :=
  jsTrim (collapseWs (decodeHtmlEntities v))

/-- `parseCountFromHtml`: strip tags, normalize, then parse the first digit
run; `0` when no digit occurs. -/
def parseCountFromHtml (v : List Char) : Nat :=
  match firstDigitRun (normalizeText (stripTags v)) with
  | some ds => digitsVal ds
  | none => 0

/-! ## Marker section splitting -/

/-- Fuel-indexed body of `countOccurrences`. -/
def countOccurrencesGo (pat : List Char) : Nat → List Char → Nat
  | 0, _ => 0
  | _ + 1, [] => 0
  | fuel + 1, c :: rest =>
    if pat ≠ [] ∧ pat.isPrefixOf (c :: rest) then
      1 + countOccurrencesGo pat fuel ((c :: rest).drop pat.length)
    else countOccurrencesGo pat fuel rest

/-- The number of non-overlapping left-to-right occurrences of `pat`. -/
def countOccurrences (pat s : List Char) : Nat :=
  countOccurrencesGo pat s.length s

/-- Fuel-indexed body of `sectionsFrom`. -/
def sectionsFromGo (marker : List Char) : Nat → List Char → List (List Char)
  | 0, s => [s]
  | fuel + 1, s =>
    if marker.length = 0 then [s]
    else
      match firstOccur marker (s.drop marker.length) with
      | none => [s]
      | some off =>
        s.take (marker.length + off) ::
          sectionsFromGo marker fuel (s.drop (marker.length + off))

/-- The cursor loop shared by `extractBlueprintCardSections` and
`extractRequirementEntitySections`, phrased on the suffix that begins at a
marker occurrence: each section runs to the start of the next occurrence,
the last one to the end of the document. -/
def sectionsFrom (marker s : List Char) : List (List Char) :=
  sectionsFromGo marker s.length s

/-- The marker section splitter (the `while`/`indexOf` loop of the source):
no occurrence of `marker` yields no sections.  (The source would not
terminate on an empty marker; its callers only pass non-empty literals.) -/
def markerSections (marker html : List Char) : List (List Char) :=
  match firstOccur marker html with
  | none => []
  | some p => sectionsFrom marker (html.drop p)

/-- `extractBlueprintCardSections`. -/
def extractBlueprintCardSections (html : List Char) : List (List Char) :=
  markerSections cardMarker html

/-- `extractRequirementEntitySections`. -/
def extractRequirementEntitySections (listHtml : List Char) : List (List Char) :=
  markerSections entityMarker listHtml

/-! ## Balanced-region locators -/

/-- Fuel-indexed body of `ulBalLoop`. -/
def ulBalLoopGo : Nat → List Char → Nat → Option Nat
  | 0, _, _ => none
  | fuel + 1, t, depth =>
    match firstOccur ulCloseLit t with
    | none => none
    | some c =>
      match firstOccur ulOpenLit t with
      | some o =>
        if o < c then
          (ulBalLoopGo fuel (t.drop (o + 3)) (depth + 1)).map (· + (o + 3))
        else if depth = 1 then some c
        else (ulBalLoopGo fuel (t.drop (c + 5)) (depth - 1)).map (· + (c + 5))
      | none =>
        if depth = 1 then some c
        else (ulBalLoopGo fuel (t.drop (c + 5)) (depth - 1)).map (· + (c + 5))

/-- The depth-counting scan of `extractRequirementsListHtml`, acting on the
suffix just after the open marker: each `<ul` before the next `</ul>`
increments the depth, each `</ul>` decrements it, and the scan answers the
offset of the `</ul>` that brings the depth to zero (`none` when the
structure never closes). -/
def ulBalLoop (t : List Char) (depth : Nat) : Option Nat :=
  ulBalLoopGo t.length t depth

/-- `extractRequirementsListHtml`: locate the requirements list marker, then
take the balanced `<ul>`-region after it. -/
def extractRequirementsListHtml (html : List Char) : Option (List Char) :=
  match firstOccur reqListMarker html with
  | none => none
  | some p =>
    (ulBalLoop ((html.drop p).drop reqListMarker.length) 1).map
      (fun off => (((html.drop p).drop reqListMarker.length)).take off)

/-- Fuel-indexed body of `divBalLoop`. -/
def divBalLoopGo : Nat → List Char → Nat → Option Nat
  | 0, _, _ => none
  | fuel + 1, t, depth =>
    match firstOccur divCloseLit t with
    | none => none
    | some c =>
      match firstOccur divOpenLit t with
      | some o =>
        if o < c then
          (divBalLoopGo fuel (t.drop (o + 4)) (depth + 1)).map (· + (o + 4))
        else if depth = 1 then some c
        else (divBalLoopGo fuel (t.drop (c + 6)) (depth - 1)).map (· + (c + 6))
      | none =>
        if depth = 1 then some c
        else (divBalLoopGo fuel (t.drop (c + 6)) (depth - 1)).map (· + (c + 6))

/-- The depth-counting scan of `extractBlueprintTagSection` (`<div` /
`</div>` variant). -/
def divBalLoop (t : List Char) (depth : Nat) : Option Nat :=
  divBalLoopGo t.length t depth

/-- `extractBlueprintTagSection`. -/
def extractBlueprintTagSection (html : List Char) : Option (List Char) :=
  match firstOccur tagSectionMarker html with
  | none => none
  | some p =>
    (divBalLoop ((html.drop p).drop tagSectionMarker.length) 1).map
      (fun off => (((html.drop p).drop tagSectionMarker.length)).take off)

/-! ## Field extractors -/

/-- Fuel-indexed body of `attrCapture`. -/
def attrCaptureGo (lit : List Char) : Nat → List Char → Option (List Char)
  | 0, _ => none
  | fuel + 1, s =>
    if lit.length = 0 then none
    else
      match afterFirst lit s with
      | none => none
      | some r2 =>
        match captureUntil quoteLit r2 with
        | none => none
        | some (cap, _) =>
          if cap = [] then attrCaptureGo lit fuel r2 else some cap

/-- The scan for `lit` followed by a non-empty run of non-quote characters
and a closing quote (`lit([^"]+)"` in the source regexes): on an empty
capture the regex engine moves on to the next occurrence of `lit`. -/
def attrCapture (lit s : List Char) : Option (List Char) :=
  attrCaptureGo lit s.length s

/-- The scan for `/data-blueprint-id="(\d+)"/`: at each occurrence of the
attribute literal the maximal digit run must be non-empty and directly
followed by the closing quote, otherwise the engine tries the next
occurrence. -/
def digitsAttr : List Char → Option (List Char)
  | [] => none
  | c :: rest =>
    if idLit.isPrefixOf (c :: rest) then
      if ((c :: rest).drop idLit.length).takeWhile Char.isDigit ≠ [] ∧
          (((c :: rest).drop idLit.length).drop
            ((((c :: rest).drop idLit.length).takeWhile Char.isDigit).length)).head?
            = some '"' then
        some (((c :: rest).drop idLit.length).takeWhile Char.isDigit)
      else digitsAttr rest
    else digitsAttr rest

/-- The candidate scan for `/by\s*<a /`: the first position where the
literal `by` is followed, after a whitespace run, by `<a `; answers the
suffix just after that `<a `. -/
def byAnchorSuffix : List Char → Option (List Char)
  | [] => none
  | c :: rest =>
    if byLit.isPrefixOf (c :: rest) ∧
        anchorLit.isPrefixOf (((c :: rest).drop 2).dropWhile (jsWs ·)) then
      some ((((c :: rest).drop 2).dropWhile (jsWs ·)).drop 3)
    else byAnchorSuffix rest

/-- The capture of `/<h2>[\s\S]*?<a [^>]*>([\s\S]*?)<\/a>/`: first `<h2>`,
then the first `<a `, its closing `>`, and the text up to the first
`</a>`. -/
def h2AnchorCapture (s : List Char) : Option (List Char) :=
  (afterFirst h2Lit s).bind fun r1 =>
    (afterFirst anchorLit r1).bind fun r2 =>
      (afterFirst gtLit r2).bind fun r3 =>
        (captureUntil anchorCloseLit r3).map Prod.fst

/-- The capture of `/by\s*<a [^>]*>([\s\S]*?)<\/a>/`. -/
def authorCapture (s : List Char) : Option (List Char) :=
  (byAnchorSuffix s).bind fun r2 =>
    (afterFirst gtLit r2).bind fun r3 =>
      (captureUntil anchorCloseLit r3).map Prod.fst

/-- The capture of
`/<div class="o-blueprint-card__cover">[\s\S]*?<a href="([^"]+)"/`. -/
def coverUrlCapture (s : List Char) : Option (List Char) :=
  (afterFirst coverLit s).bind (attrCapture hrefLit)

/-- The capture of `/<ul class="o-blueprint-card__tags">([\s\S]*?)<\/ul>/`. -/
def cardTagsCapture (s : List Char) : Option (List Char) :=
  (afterFirst cardTagsUlLit s).bind fun r =>
    (captureUntil ulCloseLit r).map Prod.fst

/-- Fuel-indexed body of `cardTagScan`. -/
def cardTagScanGo : Nat → List Char → List (List Char)
  | 0, _ => []
  | fuel + 1, s =>
    match afterFirst cardTagLiLit s with
    | none => []
    | some t =>
      if ((t.drop ((t.takeWhile (fun d => d ≠ '"')).length)).head? = some '"' ∧
          (t.drop ((t.takeWhile (fun d => d ≠ '"')).length + 1)).head? = some '>') then
        match captureUntil liCloseLit
            (t.drop ((t.takeWhile (fun d => d ≠ '"')).length + 2)) with
        | some (cap, rest) => cap :: cardTagScanGo fuel rest
        | none => []
      else cardTagScanGo fuel t

/-- The `matchAll` scan of
`/<li class="o-blueprint-card__tags-tag[^"]*">([\s\S]*?)<\/li>/g`:
after each occurrence of the class literal the non-quote run must be closed
by `">` and the capture runs to the first `</li>`; matching resumes after
the consumed text. -/
def cardTagScan (s : List Char) : List (List Char) := cardTagScanGo s.length s

/-- Fuel-indexed body of `tippyAll`. -/
def tippyAllGo : Nat → List Char → List (List Char)
  | 0, _ => []
  | fuel + 1, s =>
    match afterFirst tippyLit s with
    | none => []
    | some r2 =>
      match captureUntil quoteLit r2 with
      | none => []
      | some (cap, rest) =>
        if cap = [] then tippyAllGo fuel r2 else cap :: tippyAllGo fuel rest

/-- The `matchAll` scan of `/data-tippy-content="([^"]+)"/g`. -/
def tippyAll (s : List Char) : List (List Char) := tippyAllGo s.length s

/-- Fuel-indexed body of `textareaMatch`. -/
def textareaMatchGo : Nat → List Char → Option (List Char)
  | 0, _ => none
  | fuel + 1, s =>
    match afterFirst textareaLit s with
    | none => none
    | some t =>
      if containsPat clipboardLit (t.takeWhile (fun d => d ≠ '>')) ∧
          (t.takeWhile (fun d => d ≠ '>')).length < t.length then
        match captureUntil textareaCloseLit
            (t.drop ((t.takeWhile (fun d => d ≠ '>')).length + 1)) with
        | some (cap, _) => some cap
        | none => none
      else textareaMatchGo fuel t

/-- The scan for
`/<textarea[^>]*data-clipboard-target="true"[^>]*>([\s\S]*?)<\/textarea>/`:
the clipboard attribute must occur inside the `>`-free run after
`<textarea`, the run must be closed by `>`, and the capture runs to the
first `</textarea>`. -/
def textareaMatch (s : List Char) : Option (List Char) :=
  textareaMatchGo s.length s

/-- The capture of
`/<div class="trix-content">[\s\S]*?<div>([\s\S]*?)<\/div>/`. -/
def descCapture (html : List Char) : Option (List Char) :=
  (afterFirst trixLit html).bind fun r1 =>
    (afterFirst innerDivLit r1).bind fun r2 =>
      (captureUntil divCloseLit r2).map Prod.fst

/-- One candidate attempt of the recipe-entry regex at a fixed `[^>]*`
length `j` after `<li`: the class literal, then `[^"]*"`, then `[^>]*>`,
then a lazy capture up to `</li>`.  Answers the whole match, the capture
and the remaining suffix. -/
def recipeChain (t : List Char) (j : Nat) :
    Option (List Char × List Char × List Char) :=
  match firstOccur quoteLit (t.drop (3 + j + recipeClassLit.length)) with
  | none => none
  | some a1 =>
    match firstOccur gtLit
        ((t.drop (3 + j + recipeClassLit.length)).drop (a1 + 1)) with
    | none => none
    | some a2 =>
      match firstOccur liCloseLit
          (((t.drop (3 + j + recipeClassLit.length)).drop (a1 + 1)).drop (a2 + 1)) with
      | none => none
      | some a3 =>
        some (t.take (3 + j + recipeClassLit.length + (a1 + 1) + (a2 + 1) + a3 + 5),
          ((((t.drop (3 + j + recipeClassLit.length)).drop (a1 + 1)).drop (a2 + 1))).take a3,
          ((((t.drop (3 + j + recipeClassLit.length)).drop (a1 + 1)).drop (a2 + 1))).drop (a3 + 5))

theorem recipeChain_rest_lt {t : List Char} {j : Nat}
    {w cap rest : List Char}
    (h : recipeChain t j = some (w, cap, rest)) : rest.length < t.length := by
  unfold recipeChain at h
  split at h
  · cases h
  · rename_i a1 h1
    split at h
    · cases h
    · rename_i a2 h2
      split at h
      · cases h
      · rename_i a3 h3
        have hf := firstOccur_some_fits h3
        have hcl : recipeClassLit.length = 47 := by decide
        have hll : liCloseLit.length = 5 := rfl
        injection h with h
        injection h with hw h
        injection h with hc hr
        subst hr
        simp only [List.length_drop] at hf ⊢
        omega

/-- The greedy backtracking over the `[^>]*` length, largest first. -/
def recipeTry (t : List Char) : Nat → Option (List Char × List Char × List Char)
  | 0 =>
    if recipeClassLit.isPrefixOf (t.drop 3) then recipeChain t 0 else none
  | j + 1 =>
    if recipeClassLit.isPrefixOf (t.drop (3 + (j + 1))) then
      match recipeChain t (j + 1) with
      | some m => some m
      | none => recipeTry t j
    else recipeTry t j

theorem recipeTry_rest_lt {t : List Char} {j : Nat}
    {w cap rest : List Char}
    (h : recipeTry t j = some (w, cap, rest)) : rest.length < t.length := by
  induction j with
  | zero =>
    unfold recipeTry at h
    split at h
    · exact recipeChain_rest_lt h
    · cases h
  | succ j ih =>
    unfold recipeTry at h
    split at h
    · split at h
      · rename_i hm
        cases h
        exact recipeChain_rest_lt hm
      · exact ih h
    · exact ih h

/-- Fuel-indexed body of `recipeScan`. -/
def recipeScanGo : Nat → List Char → List (List Char × List Char)
  | 0, _ => []
  | fuel + 1, s =>
    match firstOccur liLit s with
    | none => []
    | some p =>
      match recipeTry (s.drop p)
          (((s.drop p).drop 3).takeWhile (fun d => d ≠ '>')).length with
      | some (whole, cap, rest) => (whole, cap) :: recipeScanGo fuel rest
      | none => recipeScanGo fuel ((s.drop p).drop 3)

/-- The `matchAll` scan of the recipe-entry regex
`/<li[^>]*class="t-blueprint__requirements-entity__recipe[^"]*"[^>]*>([\s\S]*?)<\/li>/g`,
collecting (whole match, capture) pairs. -/
def recipeScan (s : List Char) : List (List Char × List Char) :=
  recipeScanGo s.length s

/-! ## Record types and assemblers -/

structure Blueprint where
  id : List Char
  name : List Char
  author : List Char
  tags : List (List Char)
  url : List Char
deriving DecidableEq

structure BlueprintRequirementRecipe where
  name : List Char
  count : Nat
deriving DecidableEq

structure BlueprintRequirement where
  name : List Char
  count : Nat
  recipes : List BlueprintRequirementRecipe
deriving DecidableEq

structure BlueprintDetails where
  blueprint : List Char
  requirements : List BlueprintRequirement
  tags : List (List Char)
  description : List Char
deriving DecidableEq

/-- `extractTags`: each card-tag match is normalized and kept only when
non-empty. -/
def extractTags (tagsHtml : List Char) : List (List Char) :=
  (cardTagScan tagsHtml).filterMap fun m =>
    if normalizeText m = [] then none else some (normalizeText m)

/-- `parseBlueprintCard`: a card without a blueprint id yields no record;
otherwise the remaining fields are extracted with empty-string defaults. -/
def parseBlueprintCard (cardHtml : List Char) : Option Blueprint :=
  match digitsAttr cardHtml with
  | none => none
  | some idDigits =>
    some
      { id := idDigits,
        name := normalizeText ((h2AnchorCapture cardHtml).getD []),
        author := normalizeText ((authorCapture cardHtml).getD []),
        tags :=
          match cardTagsCapture cardHtml with
          | some cap => if cap = [] then [] else extractTags cap
          | none => [],
        url :=
          match coverUrlCapture cardHtml with
          | some cap => jsTrim (decodeHtmlEntities cap)
          | none => [] }

/-- The pure core of `searchBlueprints` after the HTML arrives: split into
card sections, parse each, drop the `null`s. -/
def searchBlueprintsCore (html : List Char) : List Blueprint :=
  (extractBlueprintCardSections html).filterMap parseBlueprintCard

/-- `extractBlueprintText`: the clipboard textarea capture, decoded and
trimmed; empty on a missing or empty capture. -/
def extractBlueprintText (html : List Char) : List Char :=
  match textareaMatch html with
  | none => []
  | some cap => if cap = [] then [] else jsTrim (decodeHtmlEntities cap)

/-- `extractBlueprintDescription`: the trix-content capture with embedded
tags stripped and the text normalized; empty on a missing or empty
capture. -/
def extractBlueprintDescription (html : List Char) : List Char :=
  match descCapture html with
  | none => []
  | some cap => if cap = [] then [] else normalizeText (stripTags cap)

/-- The tag names collected from a located tag section. -/
def tagNamesFromSection (sec : List Char) : List (List Char) :=
  (tippyAll sec).filterMap fun m =>
    if normalizeText m = [] then none else some (normalizeText m)

/-- `extractBlueprintTagNames`: empty when the tag section is missing (or
empty, which is falsy in the source); otherwise every non-empty normalized
tooltip value inside it. -/
def extractBlueprintTagNames (html : List Char) : List (List Char) :=
  match extractBlueprintTagSection html with
  | none => []
  | some sec => if sec = [] then [] else tagNamesFromSection sec

/-- The extracted name of one requirement entity (the tooltip attribute
after the tally class literal), decoded and trimmed; empty when absent. -/
def reqEntityName (entityHtml : List Char) : List Char :=
  match (afterFirst tallyNameLit entityHtml).bind (attrCapture tippyLit) with
  | some cap => jsTrim (decodeHtmlEntities cap)
  | none => []

/-- The tally capture of one requirement entity. -/
def tallyCapture (entityHtml : List Char) : Option (List Char) :=
  (afterFirst tallyDivLit entityHtml).bind fun r =>
    (captureUntil divCloseLit r).map Prod.fst

/-- The extracted count of one requirement entity; `0` when the tally is
missing or empty. -/
def reqEntityCount (entityHtml : List Char) : Nat :=
  match tallyCapture entityHtml with
  | some cap => if cap = [] then 0 else parseCountFromHtml cap
  | none => 0

/-- The extracted name of one recipe row: the tooltip attribute of the
whole match, decoded and trimmed; empty when absent. -/
def recipeMatchName (m : List Char × List Char) : List Char :=
  match attrCapture tippyLit m.1 with
  | some cap => jsTrim (decodeHtmlEntities cap)
  | none => []

/-- One recipe row from a (whole match, capture) pair: dropped when the
tooltip name is empty or the parsed count is zero. -/
def recipeOfMatch (m : List Char × List Char) :
    Option BlueprintRequirementRecipe :=
  if recipeMatchName m = [] ∨ parseCountFromHtml m.2 = 0 then none
  else some { name := recipeMatchName m, count := parseCountFromHtml m.2 }

/-- `extractRecipeEntries`. -/
def extractRecipeEntries (recipesHtml : List Char) :
    List BlueprintRequirementRecipe :=
  (recipeScan recipesHtml).filterMap recipeOfMatch

/-- The recipes capture of one requirement entity. -/
def recipesCapture (entityHtml : List Char) : Option (List Char) :=
  (afterFirst recipesUlLit entityHtml).bind fun r =>
    (captureUntil ulCloseLit r).map Prod.fst

/-- The extracted recipes of one requirement entity; empty when the recipes
sub-list is missing or its capture is empty. -/
def reqEntityRecipes (entityHtml : List Char) :
    List BlueprintRequirementRecipe :=
  match recipesCapture entityHtml with
  | some cap => if cap = [] then [] else extractRecipeEntries cap
  | none => []

/-- `parseRequirementEntity`: an entity without a name yields no
requirement (its parsed recipes are discarded with it); a zero count only
logs a warning in the source and never discards. -/
def parseRequirementEntity (entityHtml : List Char) :
    Option BlueprintRequirement :=
  if reqEntityName entityHtml = [] then none
  else
    some
      { name := reqEntityName entityHtml,
        count := reqEntityCount entityHtml,
        recipes := reqEntityRecipes entityHtml }

/-- `extractBlueprintRequirements`: empty when the requirements list is
missing (or its located region is empty, which is falsy in the source);
otherwise the parsed entity sections. -/
def extractBlueprintRequirements (html : List Char) :
    List BlueprintRequirement :=
  match extractRequirementsListHtml html with
  | none => []
  | some listHtml =>
    if listHtml = [] then []
    else (extractRequirementEntitySections listHtml).filterMap
      parseRequirementEntity

/-- The pure core of `fetchBlueprintDetails` after the HTML arrives: the
four independent sub-extractions (`options.includeBlueprint ?? true` is the
`includeBlueprint` argument here). -/
def fetchBlueprintDetailsCore (html : List Char) (includeBlueprint : Bool) :
    BlueprintDetails :=
  { blueprint := if includeBlueprint then extractBlueprintText html else [],
    requirements := extractBlueprintRequirements html,
    tags := extractBlueprintTagNames html,
    description := extractBlueprintDescription html }

/-! ## Lemmas about `replaceAll` and the entity decoder -/

theorem containsPat_false_fo {pat s : List Char}
    (h : containsPat pat s = false) : firstOccur pat s = none := by
  unfold containsPat at h
  cases hfo : firstOccur pat s with
  | none => rfl
  | some p => rw [hfo] at h; cases h

theorem replaceAllGo_eq_self {pat rep : List Char} :
    ∀ {fuel : Nat} {s : List Char}, s.length ≤ fuel →
      firstOccur pat s = none → replaceAllGo pat rep fuel s = s := by
  intro fuel
  induction fuel with
  | zero =>
    intro s hle _
    cases s with
    | nil => rfl
    | cons c rest => simp at hle
  | succ fuel ih =>
    intro s hle h
    cases s with
    | nil => rfl
    | cons c rest =>
      have hnp : ¬ pat.isPrefixOf (c :: rest) = true := by
        intro hp
        unfold firstOccur at h
        rw [if_pos hp] at h
        cases h
      have hrest : firstOccur pat rest = none := by
        unfold firstOccur at h
        rw [if_neg hnp] at h
        cases hr : firstOccur pat rest with
        | none => rfl
        | some q => rw [hr] at h; cases h
      rw [replaceAllGo, if_neg (by intro hand; exact hnp hand.2)]
      have hlen : rest.length ≤ fuel := by
        simp only [List.length_cons] at hle
        omega
      rw [ih hlen hrest]

theorem replaceAll_eq_self {pat rep s : List Char}
    (h : firstOccur pat s = none) : replaceAll pat rep s = s :=
  replaceAllGo_eq_self (Nat.le_refl _) h

/-- Whether none of the five entity escapes occurs in `s`. -/
def entityFree (s : List Char) : Bool :=
  !containsPat ampPat s && !containsPat ltPat s && !containsPat gtPat s &&
    !containsPat quotPat s && !containsPat aposPat s

theorem decodeHtmlEntities_eq_self {s : List Char}
    (h : entityFree s = true) : decodeHtmlEntities s = s := by
  unfold entityFree at h
  simp only [Bool.and_eq_true, Bool.not_eq_true'] at h
  obtain ⟨⟨⟨⟨h1, h2⟩, h3⟩, h4⟩, h5⟩ := h
  unfold decodeHtmlEntities
  rw [replaceAll_eq_self (containsPat_false_fo h1),
    replaceAll_eq_self (containsPat_false_fo h2),
    replaceAll_eq_self (containsPat_false_fo h3),
    replaceAll_eq_self (containsPat_false_fo h4),
    replaceAll_eq_self (containsPat_false_fo h5)]

/-! ## Lemmas about whitespace collapsing and trimming -/

/-- Every whitespace character of `s` is a plain space. -/
def WsSp (s : List Char) : Prop := ∀ c ∈ s, jsWs c = true → c = ' '

/-- No two adjacent characters of `s` are both whitespace. -/
def NoAdj (s : List Char) : Prop :=
  List.Chain' (fun a b => ¬(jsWs a = true ∧ jsWs b = true)) s

theorem dropWhile_head_not {p : Char → Bool} {l v : List Char} {d : Char}
    (h : l.dropWhile p = d :: v) : p d = false := by
  induction l with
  | nil => cases h
  | cons c rest ih =>
    by_cases hc : p c
    · rw [List.dropWhile_cons_of_pos hc] at h
      exact ih h
    · rw [List.dropWhile_cons_of_neg hc] at h
      cases h
      simpa using hc

theorem collapseWsGo_cons_of_ws {c : Char} {rest : List Char} {fuel : Nat}
    (h : jsWs c = true) :
    collapseWsGo (fuel + 1) (c :: rest) =
      ' ' :: collapseWsGo fuel (rest.dropWhile (jsWs ·)) := by
  rw [collapseWsGo, if_pos h]

theorem collapseWsGo_cons_of_not_ws {c : Char} {rest : List Char} {fuel : Nat}
    (h : jsWs c = false) :
    collapseWsGo (fuel + 1) (c :: rest) = c :: collapseWsGo fuel rest := by
  rw [collapseWsGo, if_neg (by simp [h])]

theorem collapseWsGo_WsSp : ∀ (fuel : Nat) (s : List Char),
    WsSp (collapseWsGo fuel s) := by
  intro fuel
  induction fuel with
  | zero => intro s c hc; cases hc
  | succ fuel ih =>
    intro s
    cases s with
    | nil => intro c hc; cases hc
    | cons c rest =>
      by_cases hws : jsWs c
      · rw [collapseWsGo_cons_of_ws hws]
        intro d hd hw
        rcases List.mem_cons.mp hd with h1 | h1
        · exact h1
        · exact ih _ d h1 hw
      · rw [collapseWsGo_cons_of_not_ws (by simpa using hws)]
        intro d hd hw
        rcases List.mem_cons.mp hd with h1 | h1
        · subst h1; exact absurd hw (by simpa using hws)
        · exact ih _ d h1 hw

theorem collapseWsGo_head_ws {fuel : Nat} {v rest : List Char} {c : Char}
    (hv : collapseWsGo fuel v = c :: rest) (hne : jsWs c = true) :
    ∃ w, v.head? = some w ∧ jsWs w = true := by
  cases fuel with
  | zero => cases hv
  | succ fuel =>
    cases v with
    | nil => cases hv
    | cons d tail =>
      by_cases hd : jsWs d
      · exact ⟨d, rfl, hd⟩
      · rw [collapseWsGo_cons_of_not_ws (by simpa using hd)] at hv
        injection hv with h1 h2
        subst h1
        exact absurd hne (by simpa using hd)

theorem collapseWsGo_NoAdj : ∀ (fuel : Nat) (s : List Char),
    NoAdj (collapseWsGo fuel s) := by
  intro fuel
  induction fuel with
  | zero => intro s; exact List.chain'_nil
  | succ fuel ih =>
    intro s
    cases s with
    | nil => exact List.chain'_nil
    | cons c rest =>
      by_cases hws : jsWs c
      · rw [collapseWsGo_cons_of_ws hws]
        rw [NoAdj, List.chain'_cons']
        refine ⟨?_, ih _⟩
        intro hd hhd hcon
        have hcw : ∃ rest', collapseWsGo fuel (rest.dropWhile (jsWs ·)) =
            hd :: rest' := by
          cases hx : collapseWsGo fuel (rest.dropWhile (jsWs ·)) with
          | nil => rw [hx] at hhd; cases hhd
          | cons a l =>
            rw [hx] at hhd
            simp only [List.head?_cons, Option.mem_def,
              Option.some.injEq] at hhd
            exact ⟨l, by rw [hhd]⟩
        rcases hcw with ⟨rest', hrest'⟩
        rcases collapseWsGo_head_ws hrest' hcon.2 with ⟨w, hw1, hw2⟩
        cases hdw : rest.dropWhile (jsWs ·) with
        | nil => rw [hdw] at hw1; cases hw1
        | cons a l =>
          rw [hdw] at hw1
          simp only [List.head?_cons, Option.some.injEq] at hw1
          subst hw1
          exact absurd hw2 (by simpa using dropWhile_head_not hdw)
      · rw [collapseWsGo_cons_of_not_ws (by simpa using hws)]
        rw [NoAdj, List.chain'_cons']
        refine ⟨?_, ih _⟩
        intro hd hhd hcon
        exact absurd hcon.1 (by simpa using hws)

theorem collapseWsGo_fix : ∀ {fuel : Nat} {s : List Char}, s.length ≤ fuel →
    WsSp s → NoAdj s → collapseWsGo fuel s = s := by
  intro fuel
  induction fuel with
  | zero =>
    intro s hle _ _
    cases s with
    | nil => rfl
    | cons c rest => simp at hle
  | succ fuel ih =>
    intro s hle h1 h2
    cases s with
    | nil => rfl
    | cons c rest =>
      have hlen : rest.length ≤ fuel := by
        simp only [List.length_cons] at hle
        omega
      by_cases hws : jsWs c
      · have hsp : c = ' ' := h1 c (List.mem_cons_self c rest) hws
        rw [collapseWsGo_cons_of_ws hws]
        have hdw : rest.dropWhile (jsWs ·) = rest := by
          cases rest with
          | nil => rfl
          | cons d tail =>
            have hpair := (List.chain'_cons'.mp h2).1 d rfl
            have hd : jsWs d = false := by
              by_cases hjd : jsWs d
              · exact absurd ⟨hws, hjd⟩ hpair
              · simpa using hjd
            rw [List.dropWhile_cons_of_neg (by simp [hd])]
        rw [hdw, ih hlen (fun d hd hw => h1 d (List.mem_cons_of_mem c hd) hw)
          (List.Chain'.tail h2), hsp]
      · rw [collapseWsGo_cons_of_not_ws (by simpa using hws)]
        rw [ih hlen (fun d hd hw => h1 d (List.mem_cons_of_mem c hd) hw)
          (List.Chain'.tail h2)]

theorem collapseWs_WsSp (s : List Char) : WsSp (collapseWs s) :=
  collapseWsGo_WsSp _ _

theorem collapseWs_NoAdj (s : List Char) : NoAdj (collapseWs s) :=
  collapseWsGo_NoAdj _ _

theorem collapseWs_fix {s : List Char} (h1 : WsSp s) (h2 : NoAdj s) :
    collapseWs s = s :=
  collapseWsGo_fix (Nat.le_refl _) h1 h2

theorem NoAdj_trimStart {s : List Char} (h : NoAdj s) : NoAdj (trimStart s) :=
  List.Chain'.suffix h (List.dropWhile_suffix _)

theorem NoAdj_symm_flip {s : List Char} (h : NoAdj s) :
    List.Chain' (flip fun a b => ¬(jsWs a = true ∧ jsWs b = true)) s := by
  refine List.Chain'.imp ?_ h
  intro a b hab hcon
  exact hab ⟨hcon.2, hcon.1⟩

theorem NoAdj_reverse {s : List Char} (h : NoAdj s) : NoAdj s.reverse := by
  rw [NoAdj, List.chain'_reverse]
  exact NoAdj_symm_flip h

theorem NoAdj_trimEnd {s : List Char} (h : NoAdj s) : NoAdj (trimEnd s) := by
  unfold trimEnd
  apply NoAdj_reverse
  exact List.Chain'.suffix (NoAdj_reverse h) (List.dropWhile_suffix _)

theorem dropWhile_idem (p : Char → Bool) (l : List Char) :
    (l.dropWhile p).dropWhile p = l.dropWhile p := by
  induction l with
  | nil => rfl
  | cons c rest ih =>
    by_cases hc : p c
    · rw [List.dropWhile_cons_of_pos hc, ih]
    · rw [List.dropWhile_cons_of_neg hc, List.dropWhile_cons_of_neg hc]

theorem trimEnd_idem (s : List Char) : trimEnd (trimEnd s) = trimEnd s := by
  unfold trimEnd
  rw [List.reverse_reverse, dropWhile_idem]

theorem trimEnd_front (s : List Char) : trimEnd s <+: s := by
  unfold trimEnd
  conv_rhs => rw [← List.reverse_reverse s]
  exact List.reverse_prefix.mpr (List.dropWhile_suffix _)

theorem trimStart_eq_self_of_head {s : List Char}
    (h : ∀ c v, s = c :: v → jsWs c = false) : trimStart s = s := by
  cases s with
  | nil => rfl
  | cons c v =>
    unfold trimStart
    rw [List.dropWhile_cons_of_neg (by simp [h c v rfl])]

theorem jsTrim_idem (s : List Char) : jsTrim (jsTrim s) = jsTrim s := by
  unfold jsTrim
  have hts : trimStart (trimEnd (trimStart s)) = trimEnd (trimStart s) := by
    apply trimStart_eq_self_of_head
    intro c v hcv
    have hpre : (c :: v) <+: trimStart s := hcv ▸ trimEnd_front (trimStart s)
    rcases hpre with ⟨t, ht⟩
    have hts2 : trimStart s = c :: (v ++ t) := by rw [← ht]; rfl
    exact dropWhile_head_not hts2
  rw [hts, trimEnd_idem]

theorem WsSp_sub {s t : List Char} (hsub : ∀ c ∈ t, c ∈ s) (h : WsSp s) :
    WsSp t := fun c hc hw => h c (hsub c hc) hw

/-! ## Claim C2 -/

/-- Claim C2, counterexample: `decodeHtmlEntities` is a chain of sequential
replaces with `&amp;` first, so `"&amp;lt;"` is re-decoded all the way to
`"<"` and does not stop at `"&lt;"` as the single-pass contract demands. -/
theorem c2_counterexample :
    decodeHtmlEntities ("&amp;lt;".toList) ≠ "&lt;".toList := by decide

/-- Claim C2 (amended): the decoder applies the five substitutions
sequentially (`&amp;` first), so a later pattern can match text produced by
an earlier substitution: `decode("&amp;lt;") = "<"`.  Every input free of
the five entity escapes passes through unchanged, and the function is
total, never failing. -/
theorem c2_amended :
    (∀ s : List Char, entityFree s = true → decodeHtmlEntities s = s) ∧
      decodeHtmlEntities ("&amp;lt;".toList) = "<".toList :=
  ⟨fun _ h => decodeHtmlEntities_eq_self h, by decide⟩

/-- Claim C2 witness: a concrete entity-free input (an unknown entity) is
returned unchanged. -/
theorem c2_witness :
    entityFree ("a&unknown;b".toList) = true ∧
      decodeHtmlEntities ("a&unknown;b".toList) = "a&unknown;b".toList :=
  ⟨by decide, c2_amended.1 ("a&unknown;b".toList) (by decide)⟩

/-! ## Claim C3 -/

/-- Claim C3, counterexample: `normalizeText` decodes entities on every
call, so normalizing `"&amp;amp;"` twice decodes twice (to `"&amp;"` and
then to `"&"`) — the normalizer is not idempotent on all inputs. -/
theorem c3_counterexample :
    normalizeText (normalizeText ("&amp;amp;".toList)) ≠
      normalizeText ("&amp;amp;".toList) := by decide

/-- Claim C3 (amended): the normalizer is idempotent on every input whose
normalized form is free of the five entity escapes — on such inputs the
second pass decodes nothing, and collapsing and trimming are fixpoints on
already-normalized text. -/
theorem c3_amended (x : List Char)
    (h : entityFree (normalizeText x) = true) :
    normalizeText (normalizeText x) = normalizeText x := by
  have hdec : decodeHtmlEntities (normalizeText x) = normalizeText x :=
    decodeHtmlEntities_eq_self h
  have hWs : WsSp (normalizeText x) := by
    apply WsSp_sub (s := collapseWs (decodeHtmlEntities x))
    · intro c hc
      have h1 : c ∈ trimStart (collapseWs (decodeHtmlEntities x)) :=
        (trimEnd_front (trimStart (collapseWs (decodeHtmlEntities x)))).subset hc
      exact (List.dropWhile_suffix _).subset h1
    · exact collapseWs_WsSp _
  have hAdj : NoAdj (normalizeText x) :=
    NoAdj_trimEnd (NoAdj_trimStart (collapseWs_NoAdj _))
  show jsTrim (collapseWs (decodeHtmlEntities (normalizeText x))) =
    normalizeText x
  rw [hdec, collapseWs_fix hWs hAdj]
  show jsTrim (jsTrim (collapseWs (decodeHtmlEntities x))) = _
  rw [jsTrim_idem]
  rfl

/-- Claim C3 witness: idempotence at a concrete input whose normalized form
is entity-free. -/
theorem c3_witness :
    entityFree (normalizeText ("  hello   world ".toList)) = true ∧
      normalizeText (normalizeText ("  hello   world ".toList)) =
        normalizeText ("  hello   world ".toList) :=
  ⟨by decide, c3_amended ("  hello   world ".toList) (by decide)⟩

/-! ## Lemmas about occurrence counting and the marker splitter -/

theorem countOccurrencesGo_nil (pat : List Char) :
    ∀ f, countOccurrencesGo pat f [] = 0 := by
  intro f
  cases f <;> rfl

theorem countOccurrencesGo_congr (pat : List Char) :
    ∀ (f1 : Nat) (f2 : Nat) (s : List Char), s.length ≤ f1 → s.length ≤ f2 →
      countOccurrencesGo pat f1 s = countOccurrencesGo pat f2 s := by
  intro f1
  induction f1 with
  | zero =>
    intro f2 s h1 _
    cases s with
    | nil => rw [countOccurrencesGo_nil, countOccurrencesGo_nil]
    | cons c rest => simp at h1
  | succ f1 ih =>
    intro f2 s h1 h2
    cases s with
    | nil => rw [countOccurrencesGo_nil, countOccurrencesGo_nil]
    | cons c rest =>
      cases f2 with
      | zero => simp at h2
      | succ f2 =>
        simp only [List.length_cons] at h1 h2
        rw [countOccurrencesGo, countOccurrencesGo]
        by_cases hp : pat ≠ [] ∧ pat.isPrefixOf (c :: rest)
        · rw [if_pos hp, if_pos hp]
          have hplen : 0 < pat.length := List.length_pos.mpr hp.1
          have hdl : ((c :: rest).drop pat.length).length ≤ rest.length := by
            simp only [List.length_drop, List.length_cons]
            omega
          congr 1
          exact ih f2 _ (by omega) (by omega)
        · rw [if_neg hp, if_neg hp]
          exact ih f2 rest (by omega) (by omega)

theorem countOccurrences_cons (pat : List Char) (c : Char) (rest : List Char) :
    countOccurrences pat (c :: rest) =
      if pat ≠ [] ∧ pat.isPrefixOf (c :: rest) then
        1 + countOccurrences pat ((c :: rest).drop pat.length)
      else countOccurrences pat rest := by
  unfold countOccurrences
  rw [show (c :: rest).length = rest.length + 1 from rfl, countOccurrencesGo]
  by_cases hp : pat ≠ [] ∧ pat.isPrefixOf (c :: rest)
  · rw [if_pos hp, if_pos hp]
    have hplen : 0 < pat.length := List.length_pos.mpr hp.1
    congr 1
    apply countOccurrencesGo_congr
    · simp only [List.length_drop, List.length_cons]
      omega
    · exact Nat.le_refl _
  · rw [if_neg hp, if_neg hp]

theorem countOccurrences_eq_zero {pat s : List Char}
    (h : ∀ j, ¬ pat <+: s.drop j) : countOccurrences pat s = 0 := by
  induction s with
  | nil => rfl
  | cons c rest ih =>
    rw [countOccurrences_cons]
    rw [if_neg (by
      intro hand
      exact h 0 (by simpa using List.isPrefixOf_iff_prefix.mp hand.2))]
    exact ih (fun j => by simpa using h (j + 1))

theorem countOccurrences_drop {pat : List Char} :
    ∀ (k : Nat) (s : List Char), (∀ j < k, ¬ pat <+: s.drop j) →
      countOccurrences pat s = countOccurrences pat (s.drop k) := by
  intro k
  induction k with
  | zero => intro s _; rw [List.drop_zero]
  | succ k ih =>
    intro s h
    cases s with
    | nil => rw [List.drop_nil]
    | cons c rest =>
      rw [countOccurrences_cons]
      rw [if_neg (by
        intro hand
        exact h 0 (by omega)
          (by simpa using List.isPrefixOf_iff_prefix.mp hand.2))]
      rw [List.drop_succ_cons]
      exact ih rest (fun j hj => by simpa using h (j + 1) (by omega))

theorem countOccurrences_here {pat s : List Char} (hne : pat ≠ [])
    (h : pat <+: s) :
    countOccurrences pat s = 1 + countOccurrences pat (s.drop pat.length) := by
  cases s with
  | nil =>
    exact absurd (List.prefix_nil.mp h) hne
  | cons c rest =>
    rw [countOccurrences_cons,
      if_pos ⟨hne, List.isPrefixOf_iff_prefix.mpr h⟩]

theorem firstOccur_nil_of_ne {pat : List Char} (hp : pat ≠ []) :
    firstOccur pat [] = none := by
  cases pat with
  | nil => exact absurd rfl hp
  | cons a l => rfl

theorem sectionsFromGo_nil {marker : List Char} (hm : marker ≠ []) :
    ∀ f, sectionsFromGo marker f [] = [[]] := by
  intro f
  cases f with
  | zero => rfl
  | succ f =>
    have hm0 : ¬ marker.length = 0 := by
      simpa using List.length_pos.mpr hm |>.ne'
    have hfo : firstOccur marker (List.drop marker.length ([] : List Char)) =
        none := by
      rw [List.drop_nil]
      exact firstOccur_nil_of_ne hm
    rw [sectionsFromGo, if_neg hm0, hfo]

theorem sectionsFromGo_congr {marker : List Char} (hm : marker ≠ []) :
    ∀ (f1 f2 : Nat) (s : List Char), s.length ≤ f1 → s.length ≤ f2 →
      sectionsFromGo marker f1 s = sectionsFromGo marker f2 s := by
  have hm0 : ¬ marker.length = 0 := by
    simpa using List.length_pos.mpr hm |>.ne'
  intro f1
  induction f1 with
  | zero =>
    intro f2 s h1 _
    cases s with
    | nil => rw [sectionsFromGo_nil hm, sectionsFromGo_nil hm]
    | cons c rest => simp at h1
  | succ f1 ih =>
    intro f2 s h1 h2
    cases s with
    | nil => rw [sectionsFromGo_nil hm, sectionsFromGo_nil hm]
    | cons c rest =>
      cases f2 with
      | zero => simp at h2
      | succ f2 =>
        simp only [List.length_cons] at h1 h2
        rw [sectionsFromGo, sectionsFromGo, if_neg hm0, if_neg hm0]
        cases hfo : firstOccur marker ((c :: rest).drop marker.length) with
        | none => rfl
        | some off =>
          have hfits := firstOccur_some_fits hfo
          have hplen : 0 < marker.length := List.length_pos.mpr hm
          simp only [List.length_drop, List.length_cons] at hfits
          dsimp only
          congr 1
          apply ih
          · simp only [List.length_drop, List.length_cons]
            omega
          · simp only [List.length_drop, List.length_cons]
            omega

theorem sectionsFrom_eq {marker : List Char} (hm : marker ≠ [])
    (s : List Char) :
    sectionsFrom marker s =
      match firstOccur marker (s.drop marker.length) with
      | none => [s]
      | some off =>
        s.take (marker.length + off) ::
          sectionsFrom marker (s.drop (marker.length + off)) := by
  have hm0 : ¬ marker.length = 0 := by
    simpa using List.length_pos.mpr hm |>.ne'
  unfold sectionsFrom
  cases s with
  | nil =>
    rw [sectionsFromGo_nil hm]
    rw [List.drop_nil, firstOccur_nil_of_ne hm]
  | cons c rest =>
    rw [show (c :: rest).length = rest.length + 1 from rfl, sectionsFromGo,
      if_neg hm0]
    cases hfo : firstOccur marker ((c :: rest).drop marker.length) with
    | none => rfl
    | some off =>
      have hfits := firstOccur_some_fits hfo
      have hplen : 0 < marker.length := List.length_pos.mpr hm
      simp only [List.length_drop, List.length_cons] at hfits
      dsimp only
      congr 1
      apply sectionsFromGo_congr hm
      · simp only [List.length_drop, List.length_cons]
        omega
      · exact Nat.le_refl _

theorem sectionsFromGo_length {marker : List Char} (hm : marker ≠ []) :
    ∀ (fuel : Nat) (s : List Char), s.length ≤ fuel → marker <+: s →
      (sectionsFromGo marker fuel s).length = countOccurrences marker s := by
  have hm0 : ¬ marker.length = 0 := by
    simpa using List.length_pos.mpr hm |>.ne'
  intro fuel
  induction fuel with
  | zero =>
    intro s hle hpre
    have hs : s = [] := List.eq_nil_of_length_eq_zero (Nat.le_zero.mp hle)
    subst hs
    exact absurd (List.prefix_nil.mp hpre) hm
  | succ fuel ih =>
    intro s hle hpre
    rw [sectionsFromGo, if_neg hm0]
    cases hfo : firstOccur marker (s.drop marker.length) with
    | none =>
      dsimp only
      rw [countOccurrences_here hm hpre,
        countOccurrences_eq_zero (firstOccur_none hfo)]
      simp
    | some off =>
      have hpre2 : marker <+: s.drop (marker.length + off) := by
        have hp2 := firstOccur_some_starts hfo
        rwa [List.drop_drop] at hp2
      have hfits := firstOccur_some_fits hfo
      have hplen : 0 < marker.length := List.length_pos.mpr hm
      simp only [List.length_drop] at hfits
      dsimp only
      simp only [List.length_cons]
      rw [ih (s.drop (marker.length + off))
        (by simp only [List.length_drop]; omega) hpre2]
      rw [countOccurrences_here hm hpre]
      rw [countOccurrences_drop off (s.drop marker.length)
        (firstOccur_some_min hfo), List.drop_drop]
      omega

theorem sectionsFrom_length {marker s : List Char} (hm : marker ≠ [])
    (hpre : marker <+: s) :
    (sectionsFrom marker s).length = countOccurrences marker s :=
  sectionsFromGo_length hm s.length s (Nat.le_refl _) hpre

theorem sectionsFromGo_flatten {marker : List Char} (hm : marker ≠ []) :
    ∀ (fuel : Nat) (s : List Char), s.length ≤ fuel →
      (sectionsFromGo marker fuel s).flatten = s := by
  have hm0 : ¬ marker.length = 0 := by
    simpa using List.length_pos.mpr hm |>.ne'
  intro fuel
  induction fuel with
  | zero =>
    intro s hle
    have hs : s = [] := List.eq_nil_of_length_eq_zero (Nat.le_zero.mp hle)
    subst hs
    simp [sectionsFromGo]
  | succ fuel ih =>
    intro s hle
    rw [sectionsFromGo, if_neg hm0]
    cases hfo : firstOccur marker (s.drop marker.length) with
    | none => simp
    | some off =>
      have hfits := firstOccur_some_fits hfo
      have hplen : 0 < marker.length := List.length_pos.mpr hm
      simp only [List.length_drop] at hfits
      dsimp only
      simp only [List.flatten_cons]
      rw [ih (s.drop (marker.length + off))
        (by simp only [List.length_drop]; omega)]
      exact List.take_append_drop _ s

theorem sectionsFrom_flatten {marker s : List Char} (hm : marker ≠ []) :
    (sectionsFrom marker s).flatten = s :=
  sectionsFromGo_flatten hm s.length s (Nat.le_refl _)

theorem sectionsFromGo_mem_starts {marker : List Char} (hm : marker ≠ []) :
    ∀ (fuel : Nat) (s : List Char), s.length ≤ fuel → marker <+: s →
      ∀ x ∈ sectionsFromGo marker fuel s, marker <+: x := by
  have hm0 : ¬ marker.length = 0 := by
    simpa using List.length_pos.mpr hm |>.ne'
  intro fuel
  induction fuel with
  | zero =>
    intro s hle hpre
    have hs : s = [] := List.eq_nil_of_length_eq_zero (Nat.le_zero.mp hle)
    subst hs
    exact absurd (List.prefix_nil.mp hpre) hm
  | succ fuel ih =>
    intro s hle hpre
    rw [sectionsFromGo, if_neg hm0]
    cases hfo : firstOccur marker (s.drop marker.length) with
    | none =>
      intro x hx
      rcases List.mem_singleton.mp hx with rfl
      exact hpre
    | some off =>
      have hpre2 : marker <+: s.drop (marker.length + off) := by
        have hp2 := firstOccur_some_starts hfo
        rwa [List.drop_drop] at hp2
      have hfits := firstOccur_some_fits hfo
      have hplen : 0 < marker.length := List.length_pos.mpr hm
      simp only [List.length_drop] at hfits
      intro x hx
      dsimp only at hx
      rcases List.mem_cons.mp hx with rfl | hx2
      · rw [List.prefix_iff_eq_take] at hpre ⊢
        rw [List.take_take, min_eq_left (by omega)]
        exact hpre
      · exact ih (s.drop (marker.length + off))
          (by simp only [List.length_drop]; omega) hpre2 x hx2

theorem sectionsFrom_mem_starts {marker s : List Char} (hm : marker ≠ [])
    (hpre : marker <+: s) :
    ∀ x ∈ sectionsFrom marker s, marker <+: x :=
  sectionsFromGo_mem_starts hm s.length s (Nat.le_refl _) hpre

theorem markerSections_length {marker html : List Char} (hm : marker ≠ []) :
    (markerSections marker html).length = countOccurrences marker html := by
  unfold markerSections
  cases hfo : firstOccur marker html with
  | none =>
    rw [countOccurrences_eq_zero (firstOccur_none hfo)]
    rfl
  | some p =>
    dsimp only
    rw [sectionsFrom_length hm (firstOccur_some_starts hfo)]
    rw [countOccurrences_drop p html (firstOccur_some_min hfo)]

theorem markerSections_empty {marker html : List Char}
    (h : containsPat marker html = false) : markerSections marker html = [] := by
  unfold markerSections
  rw [containsPat_false_fo h]

theorem markerSections_mem_starts {marker html : List Char} (hm : marker ≠ []) :
    ∀ sec ∈ markerSections marker html, marker <+: sec := by
  unfold markerSections
  cases hfo : firstOccur marker html with
  | none => intro sec hsec; cases hsec
  | some p =>
    dsimp only
    exact sectionsFrom_mem_starts hm (firstOccur_some_starts hfo)

theorem markerSections_flatten {marker html : List Char} (hm : marker ≠ [])
    {p : Nat} (hfo : firstOccur marker html = some p) :
    html.drop p = (markerSections marker html).flatten ∧
      ∀ j < p, ¬ marker <+: html.drop j := by
  constructor
  · unfold markerSections
    rw [hfo, sectionsFrom_flatten hm]
  · exact firstOccur_some_min hfo

/-! ## Claim C8 -/

/-- Claim C8: for every document and non-empty marker, the section splitter
returns one section per non-overlapping left-to-right occurrence of the
marker; each section starts at its occurrence (the marker is its prefix);
the sections tile the document contiguously from the first occurrence to
the end of the document (so each one ends where the next begins); and when
the marker does not occur the splitter returns the empty sequence, not a
failure.  `extractBlueprintCardSections` and
`extractRequirementEntitySections` are the two instances. -/
theorem c8_theorem (marker html : List Char) (hm : marker ≠ []) :
    (containsPat marker html = false → markerSections marker html = []) ∧
    (markerSections marker html).length = countOccurrences marker html ∧
    (∀ sec ∈ markerSections marker html, marker <+: sec) ∧
    (∀ p, firstOccur marker html = some p →
      html.drop p = (markerSections marker html).flatten ∧
      ∀ j < p, ¬ marker <+: html.drop j) ∧
    extractBlueprintCardSections html = markerSections cardMarker html ∧
    extractRequirementEntitySections html = markerSections entityMarker html :=
  ⟨markerSections_empty, markerSections_length hm,
    markerSections_mem_starts hm,
    fun _ hfo => markerSections_flatten hm hfo, rfl, rfl⟩

/-- Claim C8 witness: the splitter at concrete inputs — two occurrences
give two tiling sections, and an absent marker gives the empty list. -/
theorem c8_witness :
    (markerSections ("ab".toList) ("xxabyyabzz".toList)).length =
      countOccurrences ("ab".toList) ("xxabyyabzz".toList) ∧
    markerSections ("ab".toList) ("noopqr".toList) = [] ∧
    ("xxabyyabzz".toList).drop 2 =
      (markerSections ("ab".toList) ("xxabyyabzz".toList)).flatten :=
  ⟨(c8_theorem ("ab".toList) ("xxabyyabzz".toList) (by decide)).2.1,
    (c8_theorem ("ab".toList) ("noopqr".toList) (by decide)).1 (by decide),
    ((c8_theorem ("ab".toList) ("xxabyyabzz".toList) (by decide)).2.2.2.1
      2 (by decide)).1⟩

/-! ## Claim C4 -/

theorem filterMap_map_some_sublist {α β : Type} (f : α → Option β)
    (l : List α) : ((l.filterMap f).map some).Sublist (l.map f) := by
  induction l with
  | nil => simp
  | cons a rest ih =>
    cases hfa : f a with
    | some b =>
      rw [List.filterMap_cons_some hfa, List.map_cons, List.map_cons, hfa]
      exact List.Sublist.cons₂ (some b) ih
    | none =>
      rw [List.filterMap_cons_none hfa, List.map_cons, hfa]
      exact List.Sublist.cons none ih

theorem digitsAttr_ne_nil {s ds : List Char}
    (h : digitsAttr s = some ds) : ds ≠ [] := by
  induction s with
  | nil => cases h
  | cons c rest ih =>
    unfold digitsAttr at h
    split at h
    · split at h
      · rename_i hcond
        injection h with h
        subst h
        exact hcond.1
      · exact ih h
    · exact ih h

theorem parseBlueprintCard_some_id {sec : List Char} {bp : Blueprint}
    (h : parseBlueprintCard sec = some bp) : bp.id ≠ [] := by
  unfold parseBlueprintCard at h
  split at h
  · cases h
  · rename_i idDigits hda
    injection h with h
    subst h
    exact digitsAttr_ne_nil hda

theorem parseBlueprintCard_none_of_no_id {sec : List Char}
    (h : digitsAttr sec = none) : parseBlueprintCard sec = none := by
  unfold parseBlueprintCard
  rw [h]

/-- Claim C4: the listing parse returns at most one record per card-marker
occurrence; the surviving records appear in the order of their sections
(the record stream, wrapped in `some`, is a sublist of the per-section
parse results in document order); a section without the required id
contributes no record; and no returned record has an empty id. -/
theorem c4_theorem (html : List Char) :
    (searchBlueprintsCore html).length ≤ countOccurrences cardMarker html ∧
    ((searchBlueprintsCore html).map some).Sublist
      ((extractBlueprintCardSections html).map parseBlueprintCard) ∧
    (∀ sec ∈ extractBlueprintCardSections html,
      digitsAttr sec = none → parseBlueprintCard sec = none) ∧
    (∀ bp ∈ searchBlueprintsCore html, bp.id ≠ []) := by
  refine ⟨?_, ?_, ?_, ?_⟩
  · have h1 : (searchBlueprintsCore html).length ≤
        (extractBlueprintCardSections html).length :=
      List.length_filterMap_le _ _
    have h2 : (extractBlueprintCardSections html).length =
        countOccurrences cardMarker html :=
      markerSections_length (by decide)
    omega
  · exact filterMap_map_some_sublist parseBlueprintCard _
  · intro sec _ hid
    exact parseBlueprintCard_none_of_no_id hid
  · intro bp hbp
    rcases List.mem_filterMap.mp hbp with ⟨sec, _, hparse⟩
    exact parseBlueprintCard_some_id hparse

def witnessCardWithId : List Char :=
  ("<li class=\"o-blueprint-card factory\" data-blueprint-id=\"42\">" ++
    "<h2><a x=\"1\">Foo</a></h2>").toList

def witnessCardNoId : List Char :=
  "<li class=\"o-blueprint-card factory\"><h2><a>NoId</a></h2>".toList

def witnessListing : List Char :=
  "zz".toList ++ witnessCardWithId ++ witnessCardNoId

/-- Claim C4 witness: on a concrete listing with two card markers, one card
lacking the id, the parse keeps one record and drops the id-less section. -/
theorem c4_witness :
    (searchBlueprintsCore witnessListing).length ≤
      countOccurrences cardMarker witnessListing ∧
    parseBlueprintCard witnessCardNoId = none :=
  ⟨(c4_theorem witnessListing).1,
    (c4_theorem witnessListing).2.2.1 witnessCardNoId (by decide) (by decide)⟩

/-! ## Lemmas about the balanced-region locator -/

theorem ulBalLoopGo_nil : ∀ (f d : Nat), ulBalLoopGo f [] d = none := by
  intro f d
  cases f with
  | zero => rfl
  | succ f =>
    rw [ulBalLoopGo, firstOccur_nil_of_ne (by decide : ulCloseLit ≠ [])]

theorem ulBalLoopGo_congr :
    ∀ (f1 f2 : Nat) (t : List Char) (d : Nat), t.length ≤ f1 →
      t.length ≤ f2 → ulBalLoopGo f1 t d = ulBalLoopGo f2 t d := by
  intro f1
  induction f1 with
  | zero =>
    intro f2 t d h1 _
    have ht : t = [] := List.eq_nil_of_length_eq_zero (Nat.le_zero.mp h1)
    subst ht
    rw [ulBalLoopGo_nil, ulBalLoopGo_nil]
  | succ f1 ih =>
    intro f2 t d h1 h2
    cases f2 with
    | zero =>
      have ht : t = [] := List.eq_nil_of_length_eq_zero (Nat.le_zero.mp h2)
      subst ht
      rw [ulBalLoopGo_nil, ulBalLoopGo_nil]
    | succ f2 =>
      rw [ulBalLoopGo, ulBalLoopGo]
      cases hc : firstOccur ulCloseLit t with
      | none => rfl
      | some c =>
        have hcf := firstOccur_some_fits hc
        have hc5 : ulCloseLit.length = 5 := rfl
        cases ho : firstOccur ulOpenLit t with
        | some o =>
          dsimp only
          by_cases hoc : o < c
          · rw [if_pos hoc, if_pos hoc]
            congr 1
            apply ih
            · simp only [List.length_drop]; omega
            · simp only [List.length_drop]; omega
          · rw [if_neg hoc, if_neg hoc]
            by_cases hd : d = 1
            · rw [if_pos hd, if_pos hd]
            · rw [if_neg hd, if_neg hd]
              congr 1
              apply ih
              · simp only [List.length_drop]; omega
              · simp only [List.length_drop]; omega
        | none =>
          dsimp only
          by_cases hd : d = 1
          · rw [if_pos hd, if_pos hd]
          · rw [if_neg hd, if_neg hd]
            congr 1
            apply ih
            · simp only [List.length_drop]; omega
            · simp only [List.length_drop]; omega

theorem ulBalLoop_eq (t : List Char) (d : Nat) :
    ulBalLoop t d =
      match firstOccur ulCloseLit t with
      | none => none
      | some c =>
        match firstOccur ulOpenLit t with
        | some o =>
          if o < c then (ulBalLoop (t.drop (o + 3)) (d + 1)).map (· + (o + 3))
          else if d = 1 then some c
          else (ulBalLoop (t.drop (c + 5)) (d - 1)).map (· + (c + 5))
        | none =>
          if d = 1 then some c
          else (ulBalLoop (t.drop (c + 5)) (d - 1)).map (· + (c + 5)) := by
  unfold ulBalLoop
  cases t with
  | nil =>
    rw [ulBalLoopGo_nil, firstOccur_nil_of_ne (by decide : ulCloseLit ≠ [])]
  | cons ch rest =>
    rw [show (ch :: rest).length = rest.length + 1 from rfl, ulBalLoopGo]
    cases hc : firstOccur ulCloseLit (ch :: rest) with
    | none => rfl
    | some c =>
      have hcf := firstOccur_some_fits hc
      have hc5 : ulCloseLit.length = 5 := rfl
      simp only [List.length_cons] at hcf
      cases ho : firstOccur ulOpenLit (ch :: rest) with
      | some o =>
        dsimp only
        by_cases hoc : o < c
        · rw [if_pos hoc, if_pos hoc]
          congr 1
          apply ulBalLoopGo_congr
          · simp only [List.length_drop, List.length_cons]; omega
          · exact Nat.le_refl _
        · rw [if_neg hoc, if_neg hoc]
          by_cases hd : d = 1
          · rw [if_pos hd, if_pos hd]
          · rw [if_neg hd, if_neg hd]
            congr 1
            apply ulBalLoopGo_congr
            · simp only [List.length_drop, List.length_cons]; omega
            · exact Nat.le_refl _
      | none =>
        dsimp only
        by_cases hd : d = 1
        · rw [if_pos hd, if_pos hd]
        · rw [if_neg hd, if_neg hd]
          congr 1
          apply ulBalLoopGo_congr
          · simp only [List.length_drop, List.length_cons]; omega
          · exact Nat.le_refl _

theorem ulBalLoop_none_of_no_close {t : List Char} (d : Nat)
    (h : firstOccur ulCloseLit t = none) : ulBalLoop t d = none := by
  rw [ulBalLoop_eq, h]

theorem firstOccur_append_of_headq {pat u v : List Char} {pc : Char}
    (hpat : pat.head? = some pc) (hm : pc ∉ u) :
    firstOccur pat (u ++ v) = (firstOccur pat v).map (· + u.length) := by
  cases pat with
  | nil => cases hpat
  | cons p pt =>
    simp only [List.head?_cons, Option.some.injEq] at hpat
    subst hpat
    exact firstOccur_append_head_notMem hm

theorem firstOccur_none_of_headq {pat u : List Char} {pc : Char}
    (hpat : pat.head? = some pc) (hm : pc ∉ u) : firstOccur pat u = none := by
  cases pat with
  | nil => cases hpat
  | cons p pt =>
    simp only [List.head?_cons, Option.some.injEq] at hpat
    subst hpat
    exact firstOccur_none_of_head_notMem hm

/-! ## Claim C1 -/

/-- The full content of the outer requirements list of `c1Doc`: one item,
a nested sub-list with the identical tag name, and a second item. -/
def c1Region (a b c : List Char) : List Char :=
  a ++ (ulOpenLit ++ (b ++ (ulCloseLit ++ c)))

/-- A document with a requirements list whose region contains a nested
`<ul>` sub-list: `pre`, the requirements-list marker, content `a`, a nested
`<ul` open tag, its content `b`, its `</ul>`, content `c`, the outer
`</ul>`, and trailing content `post`. -/
def c1Doc (pre a b c post : List Char) : List Char :=
  pre ++ (reqListMarker ++
    (a ++ (ulOpenLit ++ (b ++ (ulCloseLit ++ (c ++ (ulCloseLit ++ post)))))))

/-- Claim C1: on every document whose requirements-list region contains a
nested sub-list of the identical tag name (`<ul …>…</ul>` inside the outer
list, the remaining content being tag-free), the balanced-region locator
returns the full outer list content, ending at the `</ul>` that brings the
depth to zero — not the region truncated at the first inner close tag —
and the returned region is strictly longer than the inner nested list
alone. -/
theorem c1_theorem (pre a b c post : List Char)
    (hpre : '<' ∉ pre) (ha : '<' ∉ a) (hb : '<' ∉ b) (hc : '<' ∉ c)
    (hpost : '<' ∉ post) (hane : a ≠ []) :
    extractRequirementsListHtml (c1Doc pre a b c post) =
      some (c1Region a b c) ∧
    (c1Region a b c).length > (ulOpenLit ++ (b ++ ulCloseLit)).length := by
  constructor
  · have hMhead : reqListMarker.head? = some '<' := rfl
    have hOhead : ulOpenLit.head? = some '<' := rfl
    have hChead : ulCloseLit.head? = some '<' := rfl
    -- the first occurrence of the requirements-list marker is at `pre.length`
    have hM : firstOccur reqListMarker (c1Doc pre a b c post) =
        some pre.length := by
      unfold c1Doc
      rw [firstOccur_append_of_headq hMhead hpre,
        firstOccur_at_start (List.prefix_append _ _)]
      simp
    -- the suffix after the marker
    have hT0 : ((c1Doc pre a b c post).drop pre.length).drop
        reqListMarker.length =
        a ++ (ulOpenLit ++ (b ++ (ulCloseLit ++ (c ++ (ulCloseLit ++ post))))) := by
      rw [List.drop_drop]
      have hgroup : c1Doc pre a b c post = (pre ++ reqListMarker) ++
          (a ++ (ulOpenLit ++ (b ++ (ulCloseLit ++ (c ++ (ulCloseLit ++ post)))))) := by
        unfold c1Doc
        simp [List.append_assoc]
      rw [hgroup, ← List.length_append, List.drop_left]
    -- first `</ul>` in the suffix: the inner close, after `a ++ <ul ++ b`
    have hCT0 : firstOccur ulCloseLit
        (a ++ (ulOpenLit ++ (b ++ (ulCloseLit ++ (c ++ (ulCloseLit ++ post)))))) =
        some (b.length + ulOpenLit.length + a.length) := by
      rw [firstOccur_append_of_headq hChead ha,
        firstOccur_append_lit (by decide : litBlocks ulOpenLit ulCloseLit),
        firstOccur_append_of_headq hChead hb,
        firstOccur_at_start (List.prefix_append _ _)]
      simp
    -- first `<ul` in the suffix: the nested open, right after `a`
    have hOT0 : firstOccur ulOpenLit
        (a ++ (ulOpenLit ++ (b ++ (ulCloseLit ++ (c ++ (ulCloseLit ++ post)))))) =
        some a.length := by
      rw [firstOccur_append_of_headq hOhead ha,
        firstOccur_at_start (List.prefix_append _ _)]
      simp
    -- no `<ul` occurs after the nested open
    have hOR2 : firstOccur ulOpenLit
        (b ++ (ulCloseLit ++ (c ++ (ulCloseLit ++ post)))) = none := by
      rw [firstOccur_append_of_headq hOhead hb,
        firstOccur_append_lit (by decide : litBlocks ulCloseLit ulOpenLit),
        firstOccur_append_of_headq hOhead hc,
        firstOccur_append_lit (by decide : litBlocks ulCloseLit ulOpenLit),
        firstOccur_none_of_headq hOhead hpost]
      rfl
    have hCR2 : firstOccur ulCloseLit
        (b ++ (ulCloseLit ++ (c ++ (ulCloseLit ++ post)))) =
        some b.length := by
      rw [firstOccur_append_of_headq hChead hb,
        firstOccur_at_start (List.prefix_append _ _)]
      simp
    have hOR4 : firstOccur ulOpenLit (c ++ (ulCloseLit ++ post)) = none := by
      rw [firstOccur_append_of_headq hOhead hc,
        firstOccur_append_lit (by decide : litBlocks ulCloseLit ulOpenLit),
        firstOccur_none_of_headq hOhead hpost]
      rfl
    have hCR4 : firstOccur ulCloseLit (c ++ (ulCloseLit ++ post)) =
        some c.length := by
      rw [firstOccur_append_of_headq hChead hc,
        firstOccur_at_start (List.prefix_append _ _)]
      simp
    -- iteration 3: depth 1, only the outer close remains
    have hiter3 : ulBalLoop (c ++ (ulCloseLit ++ post)) 1 = some c.length := by
      rw [ulBalLoop_eq, hCR4, hOR4]
      rfl
    -- iteration 2: depth 2, the inner close brings it back to 1
    have hdropR2 : (b ++ (ulCloseLit ++ (c ++ (ulCloseLit ++ post)))).drop
        (b.length + 5) = c ++ (ulCloseLit ++ post) := by
      have hgroup2 : b ++ (ulCloseLit ++ (c ++ (ulCloseLit ++ post))) =
          (b ++ ulCloseLit) ++ (c ++ (ulCloseLit ++ post)) := by
        simp [List.append_assoc]
      rw [hgroup2]
      have hlen2 : b.length + 5 = (b ++ ulCloseLit).length := by
        simp [ulCloseLit]
      rw [hlen2, List.drop_left]
    have hiter2 : ulBalLoop (b ++ (ulCloseLit ++ (c ++ (ulCloseLit ++ post)))) 2 =
        some (c.length + (b.length + 5)) := by
      rw [ulBalLoop_eq, hCR2, hOR2]
      dsimp only
      rw [if_neg (by omega), hdropR2, hiter3]
      rfl
    -- iteration 1: depth 1, the nested open comes before the inner close
    have hdropT0 : (a ++ (ulOpenLit ++ (b ++ (ulCloseLit ++ (c ++ (ulCloseLit ++ post)))))).drop
        (a.length + 3) = b ++ (ulCloseLit ++ (c ++ (ulCloseLit ++ post))) := by
      have hgroup1 : a ++ (ulOpenLit ++ (b ++ (ulCloseLit ++ (c ++ (ulCloseLit ++ post))))) =
          (a ++ ulOpenLit) ++ (b ++ (ulCloseLit ++ (c ++ (ulCloseLit ++ post)))) := by
        simp [List.append_assoc]
      rw [hgroup1]
      have hlen1 : a.length + 3 = (a ++ ulOpenLit).length := by
        simp [ulOpenLit]
      rw [hlen1, List.drop_left]
    have hiter1 : ulBalLoop
        (a ++ (ulOpenLit ++ (b ++ (ulCloseLit ++ (c ++ (ulCloseLit ++ post)))))) 1 =
        some (c.length + (b.length + 5) + (a.length + 3)) := by
      rw [ulBalLoop_eq, hCT0, hOT0]
      dsimp only
      have h3 : ulOpenLit.length = 3 := rfl
      rw [if_pos (by omega), hdropT0, hiter2]
      rfl
    -- assemble the extractor
    unfold extractRequirementsListHtml
    rw [hM]
    dsimp only
    rw [hT0, hiter1]
    dsimp only [Option.map_some']
    congr 1
    have hgroup3 : a ++ (ulOpenLit ++ (b ++ (ulCloseLit ++ (c ++ (ulCloseLit ++ post))))) =
        c1Region a b c ++ (ulCloseLit ++ post) := by
      unfold c1Region
      simp [List.append_assoc]
    rw [hgroup3]
    have hlen3 : c.length + (b.length + 5) + (a.length + 3) =
        (c1Region a b c).length := by
      unfold c1Region
      simp only [List.length_append]
      have h1 : ulOpenLit.length = 3 := rfl
      have h2 : ulCloseLit.length = 5 := rfl
      omega
    rw [hlen3, List.take_left]
  · unfold c1Region
    simp only [List.length_append, gt_iff_lt]
    have h1 : 0 < a.length := List.length_pos.mpr hane
    omega

/-- Claim C1 witness: the locator at a concrete document with one
requirement item whose recipes sub-list uses the identical `<ul>` tag:
the returned region spans both items and the nested list. -/
theorem c1_witness :
    extractRequirementsListHtml
        (c1Doc ("p".toList) ("i1".toList) (" r1 r2".toList) ("i2".toList)
          ("z".toList)) =
      some (c1Region ("i1".toList) (" r1 r2".toList) ("i2".toList)) ∧
    (c1Region ("i1".toList) (" r1 r2".toList) ("i2".toList)).length >
      (ulOpenLit ++ (" r1 r2".toList ++ ulCloseLit)).length :=
  c1_theorem ("p".toList) ("i1".toList) (" r1 r2".toList) ("i2".toList)
    ("z".toList) (by decide) (by decide) (by decide) (by decide) (by decide)
    (by decide)

/-! ## Claim C5 -/

/-- Claim C5: a requirement entity is discarded exactly when its extracted
name is empty; when the name is present the parsed requirement carries the
extracted count (which may be `0`) and the extracted recipes, so a zero
count alone never discards a requirement, and a discarded requirement
takes its parsed recipes with it. -/
theorem c5_theorem (entityHtml : List Char) :
    (parseRequirementEntity entityHtml = none ↔
      reqEntityName entityHtml = []) ∧
    (reqEntityName entityHtml ≠ [] →
      parseRequirementEntity entityHtml =
        some { name := reqEntityName entityHtml,
               count := reqEntityCount entityHtml,
               recipes := reqEntityRecipes entityHtml }) := by
  unfold parseRequirementEntity
  constructor
  · constructor
    · intro h
      by_cases hn : reqEntityName entityHtml = []
      · exact hn
      · rw [if_neg hn] at h
        cases h
    · intro h
      rw [if_pos h]
  · intro h
    rw [if_neg h]

def witnessEntityZero : List Char :=
  ("<li class=\"t-blueprint__requirements-entity\">" ++
    "<div class=\"t-blueprint__requirements-entity__tally\">" ++
    "<span>0</span></div><img data-tippy-content=\"Iron Ingot\">").toList

/-- Claim C5 witness: a concrete entity with a name and a zero tally is
kept, with `count = 0` in the output. -/
theorem c5_witness :
    reqEntityName witnessEntityZero ≠ [] ∧
    reqEntityCount witnessEntityZero = 0 ∧
    parseRequirementEntity witnessEntityZero =
      some { name := reqEntityName witnessEntityZero,
             count := reqEntityCount witnessEntityZero,
             recipes := reqEntityRecipes witnessEntityZero } :=
  ⟨by decide, by decide, (c5_theorem witnessEntityZero).2 (by decide)⟩

/-! ## Claim C6 -/

/-- Claim C6: a recipe row is discarded exactly when its extracted name is
empty or its parsed count is zero — the two conditions disqualify
independently — and therefore every entry of the returned recipes sequence
has a non-empty name and a count of at least 1. -/
theorem c6_theorem (recipesHtml : List Char) :
    (∀ e ∈ extractRecipeEntries recipesHtml, e.name ≠ [] ∧ 1 ≤ e.count) ∧
    extractRecipeEntries recipesHtml =
      (recipeScan recipesHtml).filterMap recipeOfMatch ∧
    (∀ m : List Char × List Char,
      (recipeOfMatch m = none ↔
        recipeMatchName m = [] ∨ parseCountFromHtml m.2 = 0) ∧
      (∀ e, recipeOfMatch m = some e →
        e = { name := recipeMatchName m,
              count := parseCountFromHtml m.2 })) := by
  refine ⟨?_, rfl, ?_⟩
  · intro e he
    rcases List.mem_filterMap.mp he with ⟨m, _, hm⟩
    unfold recipeOfMatch at hm
    by_cases hcond : recipeMatchName m = [] ∨ parseCountFromHtml m.2 = 0
    · rw [if_pos hcond] at hm
      cases hm
    · rw [if_neg hcond] at hm
      push_neg at hcond
      obtain ⟨en, ec⟩ := e
      dsimp only
      injection hm with h2
      injection h2 with hn hcnt
      subst hn
      subst hcnt
      exact ⟨hcond.1, Nat.pos_of_ne_zero hcond.2⟩
  · intro m
    constructor
    · unfold recipeOfMatch
      constructor
      · intro h
        by_cases hcond : recipeMatchName m = [] ∨ parseCountFromHtml m.2 = 0
        · exact hcond
        · rw [if_neg hcond] at h
          cases h
      · intro h
        rw [if_pos h]
    · intro e he
      unfold recipeOfMatch at he
      by_cases hcond : recipeMatchName m = [] ∨ parseCountFromHtml m.2 = 0
      · rw [if_pos hcond] at he
        cases he
      · rw [if_neg hcond] at he
        injection he with he
        exact he.symm

def witnessRecipes : List Char :=
  ("<li class=\"t-blueprint__requirements-entity__recipe a\">" ++
    "<span>2</span><img data-tippy-content=\"Gear\"></li>" ++
    "<li class=\"t-blueprint__requirements-entity__recipe\">" ++
    "<span>0</span><img data-tippy-content=\"Belt\"></li>").toList

set_option maxHeartbeats 2000000 in
/-- Claim C6 witness: on a concrete recipes list the kept entry has a
non-empty name and a positive count (the zero-count entry is dropped). -/
theorem c6_witness :
    extractRecipeEntries witnessRecipes =
      [{ name := "Gear".toList, count := 2 }] ∧
    ({ name := "Gear".toList, count := 2 } :
      BlueprintRequirementRecipe).name ≠ [] ∧
    1 ≤ ({ name := "Gear".toList, count := 2 } :
      BlueprintRequirementRecipe).count :=
  ⟨by decide,
    ((c6_theorem witnessRecipes).1 _ (by decide)).1,
    ((c6_theorem witnessRecipes).1 _ (by decide)).2⟩

/-! ## Claim C7 -/

theorem firstDigitRun_none {s : List Char}
    (h : ∀ ch ∈ s, ch.isDigit = false) : firstDigitRun s = none := by
  induction s with
  | nil => rfl
  | cons c rest ih =>
    unfold firstDigitRun
    rw [if_neg (by simp [h c (List.mem_cons_self c rest)])]
    exact ih (fun ch hch => h ch (List.mem_cons_of_mem c hch))

/-- Claim C7: quantity extraction strips embedded markup, decodes and
normalizes, then parses the maximal digit run at the first digit as a
non-negative integer (`Nat` here); when the processed text has no digit it
returns exactly `0` and never fails; concretely
`parseCountFromHtml("<span>Qty</span> 12 units") = 12` and
`parseCountFromHtml("no numbers") = 0`. -/
theorem c7_theorem :
    (∀ v : List Char,
      (∀ ch ∈ normalizeText (stripTags v), ch.isDigit = false) →
        parseCountFromHtml v = 0) ∧
    (∀ (v ds : List Char),
      firstDigitRun (normalizeText (stripTags v)) = some ds →
        parseCountFromHtml v = digitsVal ds) ∧
    parseCountFromHtml ("<span>Qty</span> 12 units".toList) = 12 ∧
    parseCountFromHtml ("no numbers".toList) = 0 := by
  refine ⟨?_, ?_, by decide, by decide⟩
  · intro v h
    unfold parseCountFromHtml
    rw [firstDigitRun_none h]
  · intro v ds h
    unfold parseCountFromHtml
    rw [h]

/-- Claim C7 witness: a digit-free input yields exactly 0. -/
theorem c7_witness : parseCountFromHtml ("abc".toList) = 0 :=
  c7_theorem.1 ("abc".toList) (by decide)

/-! ## Claim C9 -/

/-- Claim C9: the detail parse never throws for structural absence — every
extractor is total here, the balanced-region locator answers `none` when
its open marker is absent or when no close tag remains (unterminated
structure), and each of the four sub-extractions that fails yields its
empty default while the overall record still carries the other three
extractions unchanged. -/
theorem c9_theorem (html : List Char) (incl : Bool) :
    (containsPat reqListMarker html = false →
      extractRequirementsListHtml html = none) ∧
    (∀ (t : List Char) (d : Nat), firstOccur ulCloseLit t = none →
      ulBalLoop t d = none) ∧
    (extractRequirementsListHtml html = none →
      (fetchBlueprintDetailsCore html incl).requirements = []) ∧
    (containsPat tagSectionMarker html = false →
      extractBlueprintTagSection html = none) ∧
    (extractBlueprintTagSection html = none →
      (fetchBlueprintDetailsCore html incl).tags = []) ∧
    (textareaMatch html = none → extractBlueprintText html = []) ∧
    (descCapture html = none →
      (fetchBlueprintDetailsCore html incl).description = []) ∧
    fetchBlueprintDetailsCore html incl =
      { blueprint := if incl then extractBlueprintText html else [],
        requirements := extractBlueprintRequirements html,
        tags := extractBlueprintTagNames html,
        description := extractBlueprintDescription html } := by
  refine ⟨?_, ?_, ?_, ?_, ?_, ?_, ?_, rfl⟩
  · intro h
    unfold extractRequirementsListHtml
    rw [containsPat_false_fo h]
  · intro t d h
    exact ulBalLoop_none_of_no_close d h
  · intro h
    show extractBlueprintRequirements html = []
    unfold extractBlueprintRequirements
    rw [h]
  · intro h
    unfold extractBlueprintTagSection
    rw [containsPat_false_fo h]
  · intro h
    show extractBlueprintTagNames html = []
    unfold extractBlueprintTagNames
    rw [h]
  · intro h
    unfold extractBlueprintText
    rw [h]
  · intro h
    show extractBlueprintDescription html = []
    unfold extractBlueprintDescription
    rw [h]

/-- Claim C9 witness: on a concrete document with none of the expected
structure, the locator reports not-found and the record degrades to empty
defaults without failing. -/
theorem c9_witness :
    extractRequirementsListHtml ("plain text only".toList) = none ∧
    (fetchBlueprintDetailsCore ("plain text only".toList) true).requirements
      = [] ∧
    ulBalLoop ("still no close tag".toList) 1 = none :=
  ⟨(c9_theorem ("plain text only".toList) true).1 (by decide),
    (c9_theorem ("plain text only".toList) true).2.2.1
      ((c9_theorem ("plain text only".toList) true).1 (by decide)),
    (c9_theorem ("plain text only".toList) true).2.1
      ("still no close tag".toList) 1 (by decide)⟩

/-! ## Claim C10 -/

/-- Claim C10: every tag emitted by the listing card tag extractor and by
the detail tag-collection extractor is non-empty after normalization — a
tag whose text normalizes to the empty string is filtered out, never
emitted as an empty element. -/
theorem c10_theorem (tagsHtml html : List Char) :
    (∀ t ∈ extractTags tagsHtml, t ≠ []) ∧
    (∀ t ∈ extractBlueprintTagNames html, t ≠ []) := by
  constructor
  · intro t ht
    unfold extractTags at ht
    rcases List.mem_filterMap.mp ht with ⟨m, _, hm⟩
    by_cases hn : normalizeText m = []
    · rw [if_pos hn] at hm
      cases hm
    · rw [if_neg hn] at hm
      injection hm with hm
      subst hm
      exact hn
  · intro t ht
    unfold extractBlueprintTagNames at ht
    cases hsec : extractBlueprintTagSection html with
    | none =>
      rw [hsec] at ht
      cases ht
    | some sec =>
      rw [hsec] at ht
      dsimp only at ht
      by_cases hse : sec = []
      · rw [if_pos hse] at ht
        cases ht
      · rw [if_neg hse] at ht
        unfold tagNamesFromSection at ht
        rcases List.mem_filterMap.mp ht with ⟨m, _, hm⟩
        by_cases hn : normalizeText m = []
        · rw [if_pos hn] at hm
          cases hm
        · rw [if_neg hn] at hm
          injection hm with hm
          subst hm
          exact hn

def witnessTagDetail : List Char :=
  ("<div class=\"t-blueprint__tags\">" ++
    "<a data-tippy-content=\"Mall\"></a>" ++
    "<a data-tippy-content=\"  \"></a></div>").toList

/-- Claim C10 witness: a concrete extracted tag is non-empty (and the
whitespace-only tooltip is filtered out). -/
theorem c10_witness :
    extractBlueprintTagNames witnessTagDetail = ["Mall".toList] ∧
    "Mall".toList ≠ [] :=
  ⟨by decide,
    (c10_theorem [] witnessTagDetail).2 ("Mall".toList) (by decide)⟩

end Scraper
